import Mathlib

/-!
Verification of the snag policy-resolution and pattern-matching engine.

Go strings are modelled as `List Char`; a Go `(value, ok)` pair becomes a
product, a nil-able Go slice used as a tri-state becomes an `Option`.
`strings.ToLower` is modelled on the ASCII range via `Char.toLower`
(all patterns and inputs of interest are ASCII).
-/

set_option maxHeartbeats 1000000

/-- Model of `strings.ToLower` (ASCII range) applied to a Go string. -/
def toLowerStr (s : List Char) : List Char := s.map Char.toLower

/-- Model of `strings.Contains(hay, need)`: `need` occurs as a contiguous
substring of `hay`.  The empty needle is contained in every string. -/
def strContains : List Char → List Char → Bool
  | [], need => need.isEmpty
  | c :: t, need => need.isPrefixOf (c :: t) || strContains t need

/-- Loop body of `matchesPattern` / `matchesBlocklist` (`patterns.go`,
`blocklist.go`): scan the patterns in order and return the first one
contained in the already-lowercased text. -/
def matchLoop (lower : List Char) : List (List Char) → List Char × Bool
  | [] => ([], false)
  | p :: ps => if strContains lower p then (p, true) else matchLoop lower ps

/-- `matchesPattern` from `src/patterns.go`: lowercase the text once, then
return the first pattern that is a substring of it, or `("", false)`. -/
def matchesPattern (text : List Char) (patterns : List (List Char)) :
    List Char × Bool :=
  matchLoop (toLowerStr text) patterns

/-- `matchesBlocklist` from `src/blocklist.go`; its body is identical to
`matchesPattern`. -/
def matchesBlocklist (text : List Char) (patterns : List (List Char)) :
    List Char × Bool :=
  matchLoop (toLowerStr text) patterns

/-- Loop of `deduplicatePatterns` (`src/patterns.go`): `seen` is the set of
patterns already emitted (the Go code uses a `map[string]bool`). -/
def dedupLoop (seen : List (List Char)) : List (List Char) → List (List Char)
  | [] => []
  | p :: ps =>
    if p ∈ seen then dedupLoop seen ps else p :: dedupLoop (p :: seen) ps

/-- `deduplicatePatterns` from `src/patterns.go`: drop later duplicates,
keeping each pattern's first occurrence in place.  (The Go code returns nil
for empty input; nil and the empty slice are both modelled as `[]`.) -/
def deduplicatePatterns (patterns : List (List Char)) : List (List Char) :=
  dedupLoop [] patterns

/-- Reference formulation used to state C8: keep the head, then deduplicate
what is left after erasing every later copy of it. -/
def dedupSpec : List (List Char) → List (List Char)
  | [] => []
  | x :: xs => x :: dedupSpec (xs.filter (fun y => !(y == x)))
termination_by l => l.length
decreasing_by
  simp only [List.length_cons, Nat.lt_succ_iff]
  exact List.length_filter_le _ _

/-- Model of `strings.SplitN(s, sep, -1)` behaviour of `strings.Split`:
splitting the empty string yields one empty field. -/
def splitOnChar (sep : Char) : List Char → List (List Char)
  | [] => [[]]
  | c :: t =>
    if c = sep then [] :: splitOnChar sep t
    else
      match splitOnChar sep t with
      | [] => [[c]]
      | l :: ls => (c :: l) :: ls

/-- `strings.Split(s, "\n")`. -/
def splitLines (s : List Char) : List (List Char) := splitOnChar '\n' s

/-- `strings.Join(lines, "\n")`. -/
def joinLines : List (List Char) → List Char
  | [] => []
  | [l] => l
  | l :: ls => l ++ '\n' :: joinLines ls

/-- `isDiffMeta` from `src/patterns.go`: recognizes unified-diff metadata
lines (headers, index lines, hunk markers, mode lines, ...). -/
def isDiffMeta (line : List Char) : Bool :=
  ("diff --git ").toList.isPrefixOf line
  || ("--- a/").toList.isPrefixOf line || line == ("--- /dev/null").toList
  || ("+++ b/").toList.isPrefixOf line || line == ("+++ /dev/null").toList
  || ("rename from ").toList.isPrefixOf line
  || ("rename to ").toList.isPrefixOf line
  || ("copy from ").toList.isPrefixOf line
  || ("copy to ").toList.isPrefixOf line
  || ("index ").toList.isPrefixOf line
  || ("@@ ").toList.isPrefixOf line
  || ("old mode ").toList.isPrefixOf line
  || ("new mode ").toList.isPrefixOf line
  || ("new file mode ").toList.isPrefixOf line
  || ("deleted file mode ").toList.isPrefixOf line
  || ("similarity index ").toList.isPrefixOf line
  || ("dissimilarity index ").toList.isPrefixOf line
  || ("Binary files ").toList.isPrefixOf line

/-- `stripDiffMeta` from `src/patterns.go`: drop metadata lines, re-join. -/
def stripDiffMeta (diff : List Char) : List Char :=
  joinLines ((splitLines diff).filter (fun l => !(isDiffMeta l)))

/-- Per-line step of `stripDiffNoise`: keep added lines (prefix `+`) with
the prefix stripped. -/
def plusStrip (line : List Char) : Option (List Char) :=
  if ("+").toList.isPrefixOf line then some (line.drop 1) else none

/-- `stripDiffNoise` from `src/patterns.go`: keep only added lines of the
(already metadata-stripped) diff, dropping the leading `+`. -/
def stripDiffNoise (diff : List Char) : List Char :=
  joinLines ((splitLines diff).filterMap plusStrip)

/-- Helper loop of `strings.Index(hay, need)`: position of the first
occurrence of `need` in `hay`, if any. -/
def indexOfSubAux (need : List Char) : Nat → List Char → Option Nat
  | i, [] => if need.isPrefixOf ([] : List Char) then some i else none
  | i, c :: t =>
    if need.isPrefixOf (c :: t) then some i else indexOfSubAux need (i + 1) t

/-- Model of `strings.Index(hay, need)` (returning `none` for Go's `-1`). -/
def indexOfSub (hay need : List Char) : Option Nat := indexOfSubAux need 0 hay

/-- `isTrailerLine` from `src/patterns.go`: nonempty, no leading space/tab,
the first `": "` occurs at index at least 1, and the key before it has no
space. -/
def isTrailerLine (line : List Char) : Bool :=
  match line with
  | [] => false
  | c :: _ =>
    if c = ' ' || c = '\t' then false
    else
      match indexOfSub line (": ").toList with
      | none => false
      | some idx =>
        if idx < 1 then false else !((line.take idx).contains ' ')

/-- The trailer-line property exactly as claim C7 words it: no leading
whitespace, contains `": "`, and the text before the first `": "` contains
no space character (the empty text qualifying).  Kept separate from
`isTrailerLine` so the two can be compared. -/
def isTrailerLineClaimed (line : List Char) : Bool :=
  (match line with
   | [] => true
   | c :: _ => !(c = ' ' || c = '\t'))
  && strContains line (": ").toList
  && (match indexOfSub line (": ").toList with
      | none => false
      | some idx => !((line.take idx).contains ' '))

/-- `blockSection` from `src/prepare.go`: the parsed `[block]` section of a
`snag.toml` file.  `push` is `none` when the key is omitted and
`some` (possibly `some []`) when the key is present. -/
structure BlockSection where
  diff : List (List Char)
  msg : List (List Char)
  push : Option (List (List Char))
  branch : List (List Char)
deriving DecidableEq

/-- `BlockConfig` from `src/prepare.go`: the resolved per-hook pattern
lists.  `Push = none` models the nil Go slice ("not explicitly set"). -/
structure BlockConfig where
  Diff : List (List Char)
  Msg : List (List Char)
  Push : Option (List (List Char))
  Branch : List (List Char)
deriving DecidableEq

/-- `BlockConfig.PushPatterns` from `src/prepare.go`: `Push` when
explicitly set, otherwise the deduplicated union of `Diff` and `Msg`. -/
def BlockConfig.PushPatterns (bc : BlockConfig) : List (List Char) :=
  match bc.Push with
  | some p => p
  | none => deduplicatePatterns (bc.Diff ++ bc.Msg)

/-- `mergeTOML` from `src/prepare.go`, on an already-parsed section: append
each list; for push, a section that sets the key (even to `[]`) makes the
accumulated push explicitly set (`pushOrNil` is `Push.getD []`). -/
def mergeTOML (bc : BlockConfig) (cfg : BlockSection) : BlockConfig :=
  { Diff := bc.Diff ++ cfg.diff
    Msg := bc.Msg ++ cfg.msg
    Push :=
      match cfg.push with
      | none => bc.Push
      | some ps => some (bc.Push.getD [] ++ ps)
    Branch := bc.Branch ++ cfg.branch }

/-- `mergeBlocklist` from `src/prepare.go`: a legacy `.blocklist` feeds the
same patterns into Diff, Msg and (when nonempty) Push, making Push
explicitly set. -/
def mergeBlocklist (bc : BlockConfig) (patterns : List (List Char)) :
    BlockConfig :=
  { Diff := bc.Diff ++ patterns
    Msg := bc.Msg ++ patterns
    Push :=
      if patterns.length > 0 then some (bc.Push.getD [] ++ patterns)
      else bc.Push
    Branch := bc.Branch }

/-- `configKind` from `src/prepare.go`: which config file type the walk has
committed to. -/
inductive ConfigKind where
  | configNone
  | configTOML
  | configBlocklist
deriving DecidableEq

/-- One directory level seen by `walkConfig` (`src/prepare.go`), as parsed
file contents: `snag.toml`, `snag-local.toml` and `.blocklist` when each
exists.  File I/O and parse errors are outside the model: levels carry
already-parsed values. -/
structure DirLevel where
  toml : Option BlockSection
  localToml : Option BlockSection
  blocklist : Option (List (List Char))
deriving DecidableEq

/-- Merge an optional structured file, as `walkConfig` does when the file
exists at the current level. -/
def mergeOptTOML (bc : BlockConfig) : Option BlockSection → BlockConfig
  | some cfg => mergeTOML bc cfg
  | none => bc

/-- Loop of `walkConfig` from `src/prepare.go` (lines 199-266), one
iteration per directory level from the start directory up to the root:
before any config is found, a level with a structured file commits the walk
to TOML mode (preferring TOML when a legacy file coexists), otherwise a
level with a `.blocklist` commits to legacy mode; once committed, only
files of the committed kind are consulted. -/
def walkConfigGo : BlockConfig → ConfigKind → Bool → List DirLevel →
    BlockConfig × Bool
  | bc, _, found, [] => (bc, found)
  | bc, kind, found, lvl :: rest =>
    match kind with
    | .configNone =>
      if lvl.toml.isSome || lvl.localToml.isSome then
        walkConfigGo (mergeOptTOML (mergeOptTOML bc lvl.toml) lvl.localToml)
          .configTOML true rest
      else
        match lvl.blocklist with
        | some ps =>
          walkConfigGo (mergeBlocklist bc ps) .configBlocklist true rest
        | none => walkConfigGo bc .configNone found rest
    | .configTOML =>
      walkConfigGo (mergeOptTOML (mergeOptTOML bc lvl.toml) lvl.localToml)
        .configTOML found rest
    | .configBlocklist =>
      match lvl.blocklist with
      | some ps =>
        walkConfigGo (mergeBlocklist bc ps) .configBlocklist found rest
      | none => walkConfigGo bc .configBlocklist found rest

/-- `walkConfig` from `src/prepare.go`: walk the levels (child first) with
an empty accumulator and no committed mode. -/
def walkConfig (levels : List DirLevel) : BlockConfig × Bool :=
  walkConfigGo ⟨[], [], none, []⟩ .configNone false levels

/-- `lowercaseAll` from `src/prepare.go`. -/
def lowercaseAll (ss : List (List Char)) : List (List Char) :=
  ss.map toLowerStr

/-- `defaultProtectedBranches` (`src/rebase.go` / `src/prepare.go`). -/
def defaultProtectedBranches : List (List Char) :=
  [("main").toList, ("master").toList]

/-- Steps 1-2 of `resolveBlockConfig` (`src/prepare.go` lines 328-397):
either the explicit `--blocklist` override (flat patterns shared by diff,
msg and an explicitly-set push) or the directory walk. -/
def baseConfig (override : Option (List (List Char)))
    (levels : List DirLevel) : BlockConfig :=
  match override with
  | some ps => ⟨ps, ps, some ps, []⟩
  | none => (walkConfig levels).1

/-- Env-var overlay of `resolveBlockConfig`: `SNAG_BLOCKLIST` patterns are
appended to Diff and Msg, and to Push only when Push is already explicitly
set; `SNAG_PROTECTED_BRANCHES` entries (already split and trimmed) are
appended to Branch. -/
def overlayEnv (bc : BlockConfig) (envPatterns envBranches :
    List (List Char)) : BlockConfig :=
  let bc :=
    if envPatterns.length > 0 then
      { bc with
        Diff := bc.Diff ++ envPatterns
        Msg := bc.Msg ++ envPatterns
        Push :=
          match bc.Push with
          | none => none
          | some p => some (p ++ envPatterns) }
    else bc
  { bc with Branch := bc.Branch ++ envBranches }

/-- Default-branch step of `resolveBlockConfig`: `["main", "master"]` only
when Branch is still empty. -/
def applyDefaultBranches (bc : BlockConfig) : BlockConfig :=
  if bc.Branch.length = 0 then { bc with Branch := defaultProtectedBranches }
  else bc

/-- Normalization tail of `resolveBlockConfig`: lowercase Diff/Msg/Push
(Branch keeps its case), then deduplicate all four lists. -/
def normalizeConfig (bc : BlockConfig) : BlockConfig :=
  let bc :=
    { bc with
      Diff := lowercaseAll bc.Diff
      Msg := lowercaseAll bc.Msg
      Push := bc.Push.map lowercaseAll }
  { bc with
    Diff := deduplicatePatterns bc.Diff
    Msg := deduplicatePatterns bc.Msg
    Push := bc.Push.map deduplicatePatterns
    Branch := deduplicatePatterns bc.Branch }

/-- `resolveBlockConfig` from `src/prepare.go` (lines 328-397), as a pure
function of the parsed config sources: override-or-walk, env overlays,
branch defaults, then normalization. -/
def resolveBlockConfigPure (override : Option (List (List Char)))
    (levels : List DirLevel)
    (envPatterns envBranches : List (List Char)) : BlockConfig :=
  normalizeConfig
    (applyDefaultBranches
      (overlayEnv (baseConfig override levels) envPatterns envBranches))

/-- Split at the first `':'` of a suppression entry: `phase` alone, or
`phase:pattern`. -/
def splitFirstColon : List Char → List Char × Option (List Char)
  | [] => ([], none)
  | c :: t =>
    if c = ':' then ([], some t)
    else
      match splitFirstColon t with
      | (ph, rest) => (c :: ph, rest)

/-- Remove, case-insensitively, every copy of `pat` from a pattern list. -/
def removePatternCI (ps : List (List Char)) (pat : List Char) :
    List (List Char) :=
  ps.filter (fun q => !(toLowerStr q == toLowerStr pat))

/-- Modelled from the spec: the handling of one entry of the
suppression/ignore environment variable (`SNAG_IGNORE`) is not present in
the sources (only its tests and documentation are).  Per spec §4.2 step 5,
an entry `phase` clears that phase's entire pattern set and `phase:pattern`
removes that one pattern from that phase, case-insensitively; phases are
`diff`, `msg`, `push`, `branch`.  Clearing or editing `push` leaves it
explicitly set. -/
def suppressEntry (bc : BlockConfig) (entry : List Char) : BlockConfig :=
  match splitFirstColon entry with
  | (phase, none) =>
    if phase = ("diff").toList then { bc with Diff := [] }
    else if phase = ("msg").toList then { bc with Msg := [] }
    else if phase = ("push").toList then { bc with Push := some [] }
    else if phase = ("branch").toList then { bc with Branch := [] }
    else bc
  | (phase, some pat) =>
    if phase = ("diff").toList then
      { bc with Diff := removePatternCI bc.Diff pat }
    else if phase = ("msg").toList then
      { bc with Msg := removePatternCI bc.Msg pat }
    else if phase = ("push").toList then
      { bc with Push := bc.Push.map (removePatternCI · pat) }
    else if phase = ("branch").toList then
      { bc with Branch := removePatternCI bc.Branch pat }
    else bc

/-- Modelled from the spec: apply the comma-separated suppression entries
in order. -/
def applySuppressions (bc : BlockConfig) (entries : List (List Char)) :
    BlockConfig :=
  entries.foldl suppressEntry bc

/-- Modelled from the spec: resolution with the suppression overlay, which
spec §4.2 places after all accumulation (walk, env overlays, branch
defaults) and before normalization. -/
def resolveWithSuppression (override : Option (List (List Char)))
    (levels : List DirLevel)
    (envPatterns envBranches : List (List Char))
    (entries : List (List Char)) : BlockConfig :=
  normalizeConfig
    (applySuppressions
      (applyDefaultBranches
        (overlayEnv (baseConfig override levels) envPatterns envBranches))
      entries)

/-- `stripTrailers` from `src/msg.go`: drop every line that is a trailer
line matching a blocklist pattern; also count the dropped lines. -/
def stripTrailers (lines : List (List Char)) (patterns : List (List Char)) :
    List (List Char) × Nat :=
  match lines with
  | [] => ([], 0)
  | l :: ls =>
    let rest := stripTrailers ls patterns
    if isTrailerLine l && (matchesBlocklist l patterns).2 then
      (rest.1, rest.2 + 1)
    else (l :: rest.1, rest.2)

/-- Outcome of the commit-message check: the message file's contents after
the check, whether the file was rewritten, how many trailer lines were
removed, and the failing pattern when phase 2 rejects the message. -/
structure MsgOutcome where
  newContents : List Char
  wrote : Bool
  removedCount : Nat
  failure : Option (List Char)
deriving DecidableEq

/-- `runMsg` from `src/msg.go` (lines 28-68), as a pure function of the
message-file contents and the resolved patterns: with no patterns the check
passes untouched; otherwise pass 1 strips matching trailer lines and
rewrites the file iff at least one was removed, and pass 2 re-joins the
remaining lines and fails with the first matching pattern.  (File I/O
errors and stderr output are outside the model.) -/
def runMsg (contents : List Char) (patterns : List (List Char)) :
    MsgOutcome :=
  if patterns.length = 0 then ⟨contents, false, 0, none⟩
  else
    let lines := splitLines contents
    let fr := stripTrailers lines patterns
    let newContents := if fr.2 > 0 then joinLines fr.1 else contents
    let body := joinLines fr.1
    let m := matchesBlocklist body patterns
    if m.2 then ⟨newContents, decide (fr.2 > 0), fr.2, some m.1⟩
    else ⟨newContents, decide (fr.2 > 0), fr.2, none⟩

/-- `runDiff` from `src/diff.go`, as a pure function of the staged diff
text and the resolved diff patterns: no patterns passes; otherwise strip
diff metadata, keep only added lines, and fail with the first matching
pattern.  `some p` models the policy-violation error naming `p`. -/
def runDiff (diffText : List Char) (diffPatterns : List (List Char)) :
    Option (List Char) :=
  if diffPatterns.length = 0 then none
  else
    let m := matchesPattern (stripDiffNoise (stripDiffMeta diffText))
      diffPatterns
    if m.2 then some m.1 else none

/-- Digit-run parser modelling `fmt.Sscanf(part, "%d", &v)` on a semver
part: the value of the leading decimal digits, `0` when there are none
(version parts carry no sign or leading space, which Sscanf would also
accept). -/
def scanDigits : List Char → Nat → Nat
  | [], acc => acc
  | c :: t, acc =>
    if c.isDigit then scanDigits t (acc * 10 + (c.toNat - 48)) else acc

/-- Value Sscanf leaves in the output variable for one version part. -/
def sscanfInt (s : List Char) : Nat := scanDigits s 0

/-- Model of `strings.SplitN(s, ".", 3)`: at most three fields, the third
keeping any later dots unsplit. -/
def splitN3 (s : List Char) : List (List Char) :=
  match splitOnChar '.' s with
  | a :: b :: c :: rest => [a, b, List.intercalate (['.']) (c :: rest)]
  | parts => parts

/-- Numeric value of component `i` (0, 1 or 2) of a version string, as the
`compareSemver` loop computes it: a missing or non-numeric part counts 0. -/
def semPart (s : List Char) (i : Nat) : Nat :=
  match (splitN3 s).get? i with
  | some p => sscanfInt p
  | none => 0

/-- Three-way comparison of one numeric component. -/
def cmpNat (x y : Nat) : Int :=
  if x < y then -1 else if y < x then 1 else 0

/-- `compareSemver` from `src/prepare.go` (lines 162-181): lexicographic
major.minor.patch comparison, returning the first nonzero component
comparison. -/
def compareSemver (a b : List Char) : Int :=
  if cmpNat (semPart a 0) (semPart b 0) ≠ 0 then
    cmpNat (semPart a 0) (semPart b 0)
  else if cmpNat (semPart a 1) (semPart b 1) ≠ 0 then
    cmpNat (semPart a 1) (semPart b 1)
  else cmpNat (semPart a 2) (semPart b 2)

/-- `strings.TrimPrefix(s, "v")`. -/
def trimV (s : List Char) : List Char :=
  if ("v").toList.isPrefixOf s then s.drop 1 else s

/-- Dev-build test of `checkMinVersion`: `Version == "dev"` or a `"dev+"`
prefix. -/
def isDevBuild (version : List Char) : Bool :=
  version == ("dev").toList || ("dev+").toList.isPrefixOf version

/-- `checkMinVersion` from `src/prepare.go` (lines 146-157), with the
running version as an explicit argument: dev builds always pass; otherwise
both versions lose a leading `v` and the check fails, with the error
message naming the offending file path, iff the running version compares
below the declared minimum. -/
def checkMinVersion (version minVer path : List Char) :
    Option (List Char) :=
  if isDevBuild version then none
  else
    let cur := trimV version
    let mv := trimV minVer
    if compareSemver cur mv < 0 then
      some (path ++ (" requires snag >= ").toList ++ mv
        ++ (" (running ").toList ++ version ++ (")").toList)
    else none

/-- Abbreviation used to state C4 and C10: the message lines that phase 1
of `runMsg` keeps (those NOT both a trailer line and a pattern match),
re-joined with newlines. -/
def keptBody (contents : List Char) (patterns : List (List Char)) :
    List Char :=
  joinLines ((splitLines contents).filter (fun l =>
    !(isTrailerLine l && (matchesBlocklist l patterns).2)))

/-- Strict "older than" on version strings in the sense of the spec: the
numeric major.minor.patch triple is lexicographically smaller. -/
def semverOlder (a b : List Char) : Prop :=
  semPart a 0 < semPart b 0
  ∨ (semPart a 0 = semPart b 0
    ∧ (semPart a 1 < semPart b 1
      ∨ (semPart a 1 = semPart b 1 ∧ semPart a 2 < semPart b 2)))

theorem isPrefixOf_append_left {p x : List Char} (z : List Char)
    (h : p.isPrefixOf x = true) : p.isPrefixOf (x ++ z) = true := by
  rw [List.isPrefixOf_iff_prefix] at h ⊢
  exact h.trans (List.prefix_append x z)

theorem isPrefixOf_append_sep {p x y : List Char} {sep : Char}
    (hsep : sep ∉ p) (h : p.isPrefixOf (x ++ sep :: y) = true) :
    p.isPrefixOf x = true := by
  induction x generalizing p with
  | nil =>
    cases p with
    | nil => simp [List.isPrefixOf]
    | cons a p' =>
      simp only [List.nil_append, List.isPrefixOf, Bool.and_eq_true,
        beq_iff_eq] at h
      exfalso
      obtain ⟨h1, -⟩ := h
      subst h1
      exact hsep (List.mem_cons_self a p')
  | cons b x' ih =>
    cases p with
    | nil => simp [List.isPrefixOf]
    | cons a p' =>
      simp only [List.cons_append, List.isPrefixOf, Bool.and_eq_true,
        beq_iff_eq] at h ⊢
      exact ⟨h.1, ih (fun hm => hsep (List.mem_cons_of_mem a hm)) h.2⟩

theorem strContains_of_startsWith {hay p : List Char}
    (h : p.isPrefixOf hay = true) : strContains hay p = true := by
  cases hay with
  | nil =>
    cases p with
    | nil => rfl
    | cons a t => simp [List.isPrefixOf] at h
  | cons c t => simp [strContains, h]

theorem strContains_cons_of {t p : List Char} (c : Char)
    (h : strContains t p = true) : strContains (c :: t) p = true := by
  simp [strContains, h]

theorem strContains_append_sep {x y p : List Char} {sep : Char}
    (hsep : sep ∉ p) :
    strContains (x ++ sep :: y) p = true ↔
      strContains x p = true ∨ strContains y p = true := by
  induction x with
  | nil =>
    simp only [List.nil_append]
    constructor
    · intro h
      simp only [strContains, Bool.or_eq_true] at h
      cases h with
      | inl h =>
        cases p with
        | nil => exact Or.inl rfl
        | cons a p' =>
          simp only [List.isPrefixOf, Bool.and_eq_true, beq_iff_eq] at h
          exfalso
          obtain ⟨h1, -⟩ := h
          subst h1
          exact hsep (List.mem_cons_self a p')
      | inr h => exact Or.inr h
    · intro h
      cases h with
      | inl h =>
        cases p with
        | nil => simp [strContains, List.isPrefixOf]
        | cons a p' => simp [strContains] at h
      | inr h => exact strContains_cons_of sep h
  | cons b x' ih =>
    simp only [List.cons_append]
    constructor
    · intro h
      simp only [strContains, Bool.or_eq_true] at h
      cases h with
      | inl h =>
        exact Or.inl (strContains_of_startsWith (isPrefixOf_append_sep hsep h))
      | inr h =>
        cases ih.1 h with
        | inl h2 => exact Or.inl (strContains_cons_of b h2)
        | inr h2 => exact Or.inr h2
    · intro h
      cases h with
      | inl h =>
        simp only [strContains, Bool.or_eq_true] at h ⊢
        cases h with
        | inl h => exact Or.inl (by
            have := isPrefixOf_append_left (sep :: y) h
            simpa using this)
        | inr h => exact Or.inr (ih.2 (Or.inl h))
      | inr h =>
        simp only [strContains, Bool.or_eq_true]
        exact Or.inr (ih.2 (Or.inr h))

theorem strContains_joinLines {p : List Char} (hne : p ≠ [])
    (hsep : '\n' ∉ p) (ls : List (List Char)) :
    strContains (joinLines ls) p = true ↔
      ∃ l ∈ ls, strContains l p = true := by
  induction ls with
  | nil =>
    simp only [joinLines]
    cases p with
    | nil => exact absurd rfl hne
    | cons a t => simp [strContains, List.isEmpty]
  | cons l ls ih =>
    cases ls with
    | nil => simp [joinLines]
    | cons l2 ls' =>
      have hj : joinLines (l :: l2 :: ls') = l ++ '\n' :: joinLines (l2 :: ls') := rfl
      rw [hj, strContains_append_sep hsep, ih]
      simp only [List.mem_cons]
      constructor
      · rintro (h | ⟨m, hm, hc⟩)
        · exact ⟨l, Or.inl rfl, h⟩
        · exact ⟨m, Or.inr hm, hc⟩
      · rintro ⟨m, hm | hm, hc⟩
        · exact Or.inl (hm ▸ hc)
        · exact Or.inr ⟨m, hm, hc⟩

theorem splitOnChar_ne_nil (sep : Char) (s : List Char) :
    splitOnChar sep s ≠ [] := by
  cases s with
  | nil => simp [splitOnChar]
  | cons c t =>
    simp only [splitOnChar]
    by_cases h : c = sep
    · simp [h]
    · simp only [h, if_false]
      cases splitOnChar sep t <;> simp

theorem mem_splitOnChar_not_sep (sep : Char) (s : List Char) :
    ∀ l ∈ splitOnChar sep s, sep ∉ l := by
  induction s with
  | nil => simp [splitOnChar]
  | cons c t ih =>
    intro l hl
    simp only [splitOnChar] at hl
    by_cases h : c = sep
    · simp only [h, if_true] at hl
      rcases List.mem_cons.1 hl with rfl | hl
      · simp
      · exact ih l hl
    · simp only [h, if_false] at hl
      rcases heq : splitOnChar sep t with _ | ⟨m, ms⟩
      · exact absurd heq (splitOnChar_ne_nil sep t)
      · rw [heq] at hl
        rcases List.mem_cons.1 hl with rfl | hl
        · intro hmem
          rcases List.mem_cons.1 hmem with rfl | hmem
          · exact h rfl
          · exact ih m (by rw [heq]; exact List.mem_cons_self m ms) hmem
        · exact ih l (by rw [heq]; exact List.mem_cons_of_mem m hl)

theorem joinLines_cons (l : List Char) (ls : List (List Char))
    (h : ls ≠ []) : joinLines (l :: ls) = l ++ '\n' :: joinLines ls := by
  cases ls with
  | nil => exact absurd rfl h
  | cons l2 ls' => rfl

theorem joinLines_splitLines (s : List Char) :
    joinLines (splitLines s) = s := by
  induction s with
  | nil => rfl
  | cons c t ih =>
    simp only [splitLines, splitOnChar] at ih ⊢
    by_cases h : c = '\n'
    · subst h
      simp only [if_true]
      rw [joinLines_cons _ _ (splitOnChar_ne_nil '\n' t), ih]
      rfl
    · simp only [h, if_false]
      rcases heq : splitOnChar '\n' t with _ | ⟨l, ls⟩
      · exact absurd heq (splitOnChar_ne_nil '\n' t)
      · rw [heq] at ih
        cases ls with
        | nil => simpa [joinLines] using ih
        | cons l2 ls' =>
          rw [joinLines_cons _ _ (by simp), List.cons_append]
          rw [joinLines_cons _ _ (by simp)] at ih
          rw [ih]

theorem splitOnChar_eq_single {sep : Char} {l : List Char}
    (h : sep ∉ l) : splitOnChar sep l = [l] := by
  induction l with
  | nil => rfl
  | cons c t ih =>
    have hc : ¬ c = sep := fun hcs => h (hcs ▸ List.mem_cons_self c t)
    have ht : sep ∉ t := fun hm => h (List.mem_cons_of_mem c hm)
    simp only [splitOnChar, hc, if_false, ih ht]

theorem splitOnChar_append_cons {sep : Char} {l : List Char}
    (rest : List Char) (h : sep ∉ l) :
    splitOnChar sep (l ++ sep :: rest) = l :: splitOnChar sep rest := by
  induction l with
  | nil => simp [splitOnChar]
  | cons c t ih =>
    have hc : ¬ c = sep := fun hcs => h (hcs ▸ List.mem_cons_self c t)
    have ht : sep ∉ t := fun hm => h (List.mem_cons_of_mem c hm)
    simp only [List.cons_append, splitOnChar, hc, if_false]
    rw [show splitOnChar sep (t.append (sep :: rest)) =
      t :: splitOnChar sep rest from ih ht]

theorem splitLines_joinLines {ls : List (List Char)}
    (hnl : ∀ l ∈ ls, '\n' ∉ l) (hne : ls ≠ []) :
    splitLines (joinLines ls) = ls := by
  induction ls with
  | nil => exact absurd rfl hne
  | cons l ls' ih =>
    cases ls' with
    | nil =>
      show splitOnChar '\n' (joinLines [l]) = [l]
      exact splitOnChar_eq_single (hnl l (List.mem_cons_self l []))
    | cons l2 ls'' =>
      rw [joinLines_cons _ _ (by simp)]
      show splitOnChar '\n' (l ++ '\n' :: joinLines (l2 :: ls'')) = _
      rw [splitOnChar_append_cons _ (hnl l (List.mem_cons_self l _))]
      have := ih (fun m hm => hnl m (List.mem_cons_of_mem l hm)) (by simp)
      rw [show splitOnChar '\n' (joinLines (l2 :: ls'')) = l2 :: ls''
        from this]

theorem stripNoise_stripMeta (d : List Char) :
    stripDiffNoise (stripDiffMeta d) =
      joinLines (((splitLines d).filter
        (fun l => !(isDiffMeta l))).filterMap plusStrip) := by
  unfold stripDiffNoise stripDiffMeta
  rcases heq : (splitLines d).filter (fun l => !(isDiffMeta l)) with _ | ⟨l, ls⟩
  · simp [joinLines, splitLines, splitOnChar, plusStrip, List.isPrefixOf]
  · rw [splitLines_joinLines]
    · intro m hm
      have hm2 : m ∈ (splitLines d).filter (fun l => !(isDiffMeta l)) := by
        rw [heq]; exact hm
      exact mem_splitOnChar_not_sep '\n' d m (List.mem_of_mem_filter hm2)
    · simp

theorem matchLoop_none {lower : List Char} {ps : List (List Char)}
    (h : ∀ p ∈ ps, strContains lower p = false) :
    matchLoop lower ps = ([], false) := by
  induction ps with
  | nil => rfl
  | cons p ps' ih =>
    have hp := h p (List.mem_cons_self p ps')
    simp only [matchLoop, hp, Bool.false_eq_true, if_false]
    exact ih fun q hq => h q (List.mem_cons_of_mem p hq)

theorem matchLoop_first {lower : List Char} {ps : List (List Char)}
    {i : Nat} {p : List Char} (hget : ps.get? i = some p)
    (hc : strContains lower p = true)
    (hbefore : ∀ j q, j < i → ps.get? j = some q →
      strContains lower q = false) :
    matchLoop lower ps = (p, true) := by
  induction ps generalizing i with
  | nil => simp at hget
  | cons a ps' ih =>
    cases i with
    | zero =>
      simp only [List.get?_cons_zero, Option.some.injEq] at hget
      subst hget
      simp [matchLoop, hc]
    | succ i' =>
      have ha : strContains lower a = false :=
        hbefore 0 a (Nat.succ_pos i') rfl
      simp only [matchLoop, ha, Bool.false_eq_true, if_false]
      exact ih (by simpa using hget)
        (fun j q hj hgj => hbefore (j+1) q (Nat.succ_lt_succ hj)
          (by simpa using hgj))

theorem matchLoop_found {lower p : List Char} {ps : List (List Char)}
    (hp : p ∈ ps) (hc : strContains lower p = true) :
    (matchLoop lower ps).2 = true := by
  induction ps with
  | nil => simp at hp
  | cons a ps' ih =>
    simp only [matchLoop]
    by_cases ha : strContains lower a = true
    · simp [ha]
    · rcases List.mem_cons.1 hp with rfl | hp'
      · exact absurd hc ha
      · simp only [Bool.not_eq_true] at ha
        simp only [ha, Bool.false_eq_true, if_false]
        exact ih hp'

theorem matchLoop_some {lower p : List Char} {ps : List (List Char)}
    (h : matchLoop lower ps = (p, true)) :
    ∃ i, ps.get? i = some p ∧ strContains lower p = true ∧
      ∀ j q, j < i → ps.get? j = some q → strContains lower q = false := by
  induction ps with
  | nil => simp [matchLoop] at h
  | cons a ps' ih =>
    by_cases ha : strContains lower a = true
    · simp only [matchLoop, ha, if_true, Prod.mk.injEq] at h
      refine ⟨0, ?_, ?_, ?_⟩
      · simp [h.1]
      · exact h.1 ▸ ha
      · intro j q hj _; omega
    · simp only [Bool.not_eq_true] at ha
      simp only [matchLoop, ha, Bool.false_eq_true, if_false] at h
      obtain ⟨i, hget, hc, hbefore⟩ := ih h
      refine ⟨i + 1, by simpa using hget, hc, ?_⟩
      intro j q hj hgj
      cases j with
      | zero =>
        have hqa : a = q := by simpa using hgj
        rw [← hqa]
        exact ha
      | succ j' =>
        exact hbefore j' q (Nat.lt_of_succ_lt_succ hj) (by simpa using hgj)

theorem toLower_eq_newline {c : Char} (h : Char.toLower c = '\n') :
    c = '\n' := by
  unfold Char.toLower at h
  by_cases hc : c.toNat ≥ 65 ∧ c.toNat ≤ 90
  · exfalso
    rw [if_pos hc] at h
    have h10 : (Char.ofNat (c.toNat + 32)).toNat = 10 := by rw [h]; decide
    have hv : (c.toNat + 32).isValidChar := Or.inl (by omega)
    rw [Char.ofNat, dif_pos hv] at h10
    simp only [Char.ofNatAux, Char.toNat, UInt32.toNat,
      BitVec.toNat_ofNatLt] at h10
    omega
  · rw [if_neg hc] at h
    exact h

theorem newline_not_mem_toLowerStr {l : List Char} (h : '\n' ∉ l) :
    '\n' ∉ toLowerStr l := by
  intro hm
  obtain ⟨c, hc, heq⟩ := List.mem_map.1 hm
  exact h (toLower_eq_newline heq ▸ hc)

theorem toLowerStr_append (a b : List Char) :
    toLowerStr (a ++ b) = toLowerStr a ++ toLowerStr b :=
  List.map_append Char.toLower a b

theorem toLowerStr_joinLines (ls : List (List Char)) :
    toLowerStr (joinLines ls) = joinLines (ls.map toLowerStr) := by
  induction ls with
  | nil => rfl
  | cons l ls' ih =>
    cases ls' with
    | nil => rfl
    | cons l2 ls'' =>
      rw [joinLines_cons l (l2 :: ls'') (by simp), toLowerStr_append,
        List.map_cons, joinLines_cons (toLowerStr l) _ (by simp)]
      congr 1
      rw [show toLowerStr ('\n' :: joinLines (l2 :: ls'')) =
        Char.toLower '\n' :: toLowerStr (joinLines (l2 :: ls'')) from rfl]
      rw [show Char.toLower '\n' = '\n' by decide, ih]

theorem mem_dedupLoop_not_seen {seen ps : List (List Char)}
    {x : List Char} (h : x ∈ dedupLoop seen ps) : x ∉ seen := by
  induction ps generalizing seen with
  | nil => simp [dedupLoop] at h
  | cons p ps' ih =>
    simp only [dedupLoop] at h
    by_cases hp : p ∈ seen
    · rw [if_pos hp] at h
      exact ih h
    · rw [if_neg hp] at h
      rcases List.mem_cons.1 h with rfl | h2
      · exact hp
      · intro hx
        exact ih h2 (List.mem_cons_of_mem p hx)

theorem dedupLoop_nodup (seen ps : List (List Char)) :
    (dedupLoop seen ps).Nodup := by
  induction ps generalizing seen with
  | nil => simp [dedupLoop]
  | cons p ps' ih =>
    simp only [dedupLoop]
    by_cases hp : p ∈ seen
    · rw [if_pos hp]
      exact ih seen
    · rw [if_neg hp]
      refine List.nodup_cons.2 ⟨?_, ih (p :: seen)⟩
      intro hmem
      exact mem_dedupLoop_not_seen hmem (List.mem_cons_self p seen)

theorem dedupLoop_eq_self {seen ps : List (List Char)} (hnd : ps.Nodup)
    (h : ∀ x ∈ ps, x ∉ seen) : dedupLoop seen ps = ps := by
  induction ps generalizing seen with
  | nil => rfl
  | cons p ps' ih =>
    simp only [dedupLoop, if_neg (h p (List.mem_cons_self p ps'))]
    congr 1
    refine ih (List.nodup_cons.1 hnd).2 ?_
    intro x hx hmem
    rcases List.mem_cons.1 hmem with rfl | h2
    · exact (List.nodup_cons.1 hnd).1 hx
    · exact h x (List.mem_cons_of_mem p hx) h2

theorem dedupLoop_eq_dedupSpec (ps : List (List Char)) :
    ∀ seen, dedupLoop seen ps =
      dedupSpec (ps.filter (fun y => decide (y ∉ seen))) := by
  induction ps with
  | nil =>
    intro seen
    simp [dedupLoop, dedupSpec]
  | cons p ps' ih =>
    intro seen
    by_cases hp : p ∈ seen
    · simp only [dedupLoop, if_pos hp, List.filter_cons]
      rw [show (decide (p ∉ seen)) = false by simp [hp]]
      simp only [Bool.false_eq_true, if_false]
      exact ih seen
    · simp only [dedupLoop, if_neg hp, List.filter_cons]
      rw [show (decide (p ∉ seen)) = true by simp [hp]]
      simp only [if_true, dedupSpec]
      congr 1
      rw [ih (p :: seen)]
      congr 1
      rw [List.filter_filter]
      refine List.filter_congr ?_
      intro y _
      by_cases hyp : y = p
      · subst hyp
        simp
      · by_cases hys : y ∈ seen <;> simp [hyp, hys]

theorem deduplicatePatterns_eq_dedupSpec (ps : List (List Char)) :
    deduplicatePatterns ps = dedupSpec ps := by
  rw [deduplicatePatterns, dedupLoop_eq_dedupSpec]
  congr 1
  refine List.filter_eq_self.2 ?_
  intro x _
  simp

theorem deduplicatePatterns_idem (ps : List (List Char)) :
    deduplicatePatterns (deduplicatePatterns ps) = deduplicatePatterns ps :=
  dedupLoop_eq_self (dedupLoop_nodup [] ps) (fun x _ hx => (List.not_mem_nil x) hx)

/-- C5: `matchesPattern` lowercases the text once and scans the patterns in
order: when no pattern is a substring of the lowercased text (in
particular when the pattern list is empty) it returns `([], false)`, and
the returned pattern is the first in list order that is a substring, even
when later patterns also match. -/
theorem matchesPattern_first_match_spec (text : List Char)
    (patterns : List (List Char)) :
    ((∀ p ∈ patterns, strContains (toLowerStr text) p = false) →
      matchesPattern text patterns = ([], false))
    ∧ (∀ i p, patterns.get? i = some p →
        strContains (toLowerStr text) p = true →
        (∀ j q, j < i → patterns.get? j = some q →
          strContains (toLowerStr text) q = false) →
        matchesPattern text patterns = (p, true)) :=
  ⟨fun h => matchLoop_none h,
   fun _ _ hget hc hbefore => matchLoop_first hget hc hbefore⟩

/-- Witness for C5 at a concrete input: with text `"Please FIXME now"` and
patterns `["nope", "fixme"]`, the second pattern matches (the first does
not) and `matchesPattern` returns it. -/
theorem matchesPattern_first_match_spec_witness :
    strContains (toLowerStr (("Please FIXME now").toList))
      (("fixme").toList) = true
    ∧ matchesPattern (("Please FIXME now").toList)
        [("nope").toList, ("fixme").toList] = (("fixme").toList, true) := by
  refine ⟨by decide, ?_⟩
  refine (matchesPattern_first_match_spec (("Please FIXME now").toList)
    [("nope").toList, ("fixme").toList]).2 1 (("fixme").toList)
    (by decide) (by decide) ?_
  intro j q hj hq
  have hj0 : j = 0 := by omega
  subst hj0
  have hqe : ("nope").toList = q := by simpa using hq
  rw [← hqe]
  decide

/-- C8: `deduplicatePatterns` removes later duplicates keeping each
element's first-occurrence position (it coincides with the recursive
keep-first-occurrence function `dedupSpec`), is idempotent, returns the
empty result on empty input, and maps `["a","b","a","c","b"]` to
`["a","b","c"]`. -/
theorem deduplicatePatterns_spec :
    (∀ x : List (List Char), deduplicatePatterns x = dedupSpec x)
    ∧ (∀ x : List (List Char),
        deduplicatePatterns (deduplicatePatterns x) = deduplicatePatterns x)
    ∧ deduplicatePatterns [] = []
    ∧ deduplicatePatterns [("a").toList, ("b").toList, ("a").toList,
        ("c").toList, ("b").toList]
      = [("a").toList, ("b").toList, ("c").toList] :=
  ⟨deduplicatePatterns_eq_dedupSpec, deduplicatePatterns_idem, rfl,
   by decide⟩

theorem indexOfSubAux_shift (need t : List Char) (k : Nat) :
    indexOfSubAux need k t = (indexOfSubAux need 0 t).map (· + k) := by
  induction t generalizing k with
  | nil =>
    simp only [indexOfSubAux]
    by_cases h : need.isPrefixOf ([] : List Char) <;> simp [h]
  | cons c t' ih =>
    simp only [indexOfSubAux]
    by_cases h : need.isPrefixOf (c :: t')
    · simp [h]
    · simp only [h, Bool.false_eq_true, if_false]
      rw [ih (k + 1), ih 1]
      cases indexOfSubAux need 0 t' with
      | none => rfl
      | some a =>
        show some (a + (k + 1)) = some (a + 1 + k)
        congr 1
        omega

theorem indexOfSub_cons (c : Char) (t need : List Char) :
    indexOfSub (c :: t) need =
      if need.isPrefixOf (c :: t) then some 0
      else (indexOfSub t need).map (· + 1) := by
  by_cases h : need.isPrefixOf (c :: t)
  · simp [indexOfSub, indexOfSubAux, h]
  · simp only [indexOfSub, indexOfSubAux, h, Bool.false_eq_true, if_false]
    exact indexOfSubAux_shift need t 1

theorem indexOfSub_some_iff (hay need : List Char) (i : Nat) :
    indexOfSub hay need = some i ↔
      (need.isPrefixOf (hay.drop i) = true
        ∧ ∀ j, j < i → need.isPrefixOf (hay.drop j) = false) := by
  induction hay generalizing i with
  | nil =>
    simp only [indexOfSub, indexOfSubAux, List.drop_nil]
    by_cases h : need.isPrefixOf ([] : List Char)
    · simp only [h, if_true, true_and]
      constructor
      · intro heq
        injection heq with heq
        subst heq
        intro j hj
        omega
      · intro h2
        have hi0 : i = 0 := by
          by_contra hne
          have hipos : 0 < i := Nat.pos_of_ne_zero hne
          exact Bool.noConfusion (h2 0 hipos)
        rw [hi0]
    · simp [h]
  | cons c t ih =>
    rw [indexOfSub_cons]
    by_cases h : need.isPrefixOf (c :: t)
    · simp only [h, if_true]
      constructor
      · intro heq
        injection heq with heq
        subst heq
        exact ⟨by simpa using h, fun j hj => by omega⟩
      · rintro ⟨h1, h2⟩
        have hi0 : i = 0 := by
          by_contra hne
          have hipos : 0 < i := Nat.pos_of_ne_zero hne
          have hcontra := h2 0 hipos
          rw [List.drop_zero] at hcontra
          rw [h] at hcontra
          exact Bool.noConfusion hcontra
        rw [hi0]
    · simp only [h, Bool.false_eq_true, if_false]
      constructor
      · intro heq
        obtain ⟨i', hi', rfl⟩ : ∃ i', indexOfSub t need = some i' ∧ i = i' + 1 := by
          cases hx : indexOfSub t need with
          | none => rw [hx] at heq; simp at heq
          | some a =>
            rw [hx] at heq
            have heq2 : some (a + 1) = some i := heq
            injection heq2 with heq3
            exact ⟨a, rfl, heq3.symm⟩
        obtain ⟨hp, hmin⟩ := (ih i').1 hi'
        refine ⟨by simpa using hp, ?_⟩
        intro j hj
        cases j with
        | zero =>
          rw [List.drop_zero]
          cases hb : need.isPrefixOf (c :: t) with
          | false => rfl
          | true => exact absurd hb h
        | succ j' =>
          have := hmin j' (by omega)
          simpa using this
      · rintro ⟨h1, h2⟩
        cases i with
        | zero =>
          exact absurd (by simpa using h1) h
        | succ i' =>
          have hp : need.isPrefixOf (t.drop i') = true := by simpa using h1
          have hmin : ∀ j, j < i' → need.isPrefixOf (t.drop j) = false := by
            intro j hj
            have := h2 (j + 1) (by omega)
            simpa using this
          rw [(ih i').2 ⟨hp, hmin⟩]
          rfl

theorem indexOfSub_isSome_of_startsWith {hay need : List Char} {j : Nat}
    (h : need.isPrefixOf (hay.drop j) = true) :
    (indexOfSub hay need).isSome = true := by
  induction hay generalizing j with
  | nil =>
    rw [List.drop_nil] at h
    simp [indexOfSub, indexOfSubAux, h]
  | cons c t ih =>
    rw [indexOfSub_cons]
    by_cases hh : need.isPrefixOf (c :: t)
    · simp [hh]
    · simp only [hh, Bool.false_eq_true, if_false]
      cases j with
      | zero =>
        rw [List.drop_zero] at h
        exact absurd h hh
      | succ j' =>
        have hsome := ih (j := j') (by simpa using h)
        cases hx : indexOfSub t need with
        | none =>
          rw [hx] at hsome
          simp at hsome
        | some a => rfl

theorem indexOfSub_none_iff (hay need : List Char) :
    indexOfSub hay need = none ↔
      ∀ j, need.isPrefixOf (hay.drop j) = false := by
  constructor
  · intro h j
    cases hx : need.isPrefixOf (hay.drop j) with
    | false => rfl
    | true =>
      have hsome := indexOfSub_isSome_of_startsWith hx
      rw [h] at hsome
      simp at hsome
  · intro h
    cases hx : indexOfSub hay need with
    | none => rfl
    | some a =>
      obtain ⟨hp, -⟩ := (indexOfSub_some_iff hay need a).1 hx
      rw [h a] at hp
      exact Bool.noConfusion hp

/-- C7 counterexample: on the line `": x"` the text before the first
`": "` is empty and contains no space, so the claimed characterization
holds of it, yet `isTrailerLine` returns `false` (the code requires the
first `": "` to occur at index at least 1). -/
theorem isTrailerLine_claim_counterexample :
    isTrailerLine ((": x").toList) = false
    ∧ isTrailerLineClaimed ((": x").toList) = true := by decide

/-- C7 (amended): `isTrailerLine` returns true iff the line is nonempty,
starts with neither a space nor a tab, the first occurrence of `": "` is
at index at least 1 — so the text before it is nonempty — and that text
contains no space character. -/
theorem isTrailerLine_iff (line : List Char) :
    isTrailerLine line = true ↔
      (line ≠ [] ∧ line.head? ≠ some ' ' ∧ line.head? ≠ some '\t'
        ∧ ∃ i, 1 ≤ i ∧ (": ").toList.isPrefixOf (line.drop i) = true
          ∧ (∀ j, j < i → (": ").toList.isPrefixOf (line.drop j) = false)
          ∧ (line.take i).contains ' ' = false) := by
  cases line with
  | nil => simp [isTrailerLine]
  | cons c t =>
    by_cases hc1 : c = ' '
    · subst hc1
      constructor
      · intro h
        exfalso
        simp [isTrailerLine] at h
      · rintro ⟨-, h1, -, -⟩
        exact absurd (by simp) h1
    · by_cases hc2 : c = '\t'
      · subst hc2
        constructor
        · intro h
          exfalso
          simp [isTrailerLine] at h
        · rintro ⟨-, -, h2, -⟩
          exact absurd (by simp) h2
      · have hh1 : (c :: t).head? ≠ some ' ' := by simp [hc1]
        have hh2 : (c :: t).head? ≠ some '\t' := by simp [hc2]
        have hred : isTrailerLine (c :: t) =
            (match indexOfSub (c :: t) ((": ").toList) with
            | none => false
            | some idx =>
              if idx < 1 then false
              else !(((c :: t).take idx).contains ' ')) := by
          simp [isTrailerLine, hc1, hc2]
        cases hidx : indexOfSub (c :: t) ((": ").toList) with
        | none =>
          have hval : isTrailerLine (c :: t) = false := by
            rw [hred, hidx]
          rw [hval]
          constructor
          · intro h
            exact absurd h (by simp)
          · rintro ⟨-, -, -, i, hi1, hp, -, -⟩
            have hnone := (indexOfSub_none_iff _ _).1 hidx i
            rw [hnone] at hp
            exact Bool.noConfusion hp
        | some idx =>
          have hval : isTrailerLine (c :: t) =
              (if idx < 1 then false
               else !(((c :: t).take idx).contains ' ')) := by
            rw [hred, hidx]
          rw [hval]
          obtain ⟨hpidx, hmin⟩ := (indexOfSub_some_iff _ _ idx).1 hidx
          by_cases hlt : idx < 1
          · have hidx0 : idx = 0 := by omega
            subst hidx0
            constructor
            · intro h
              rw [if_pos hlt] at h
              exact absurd h (by simp)
            · rintro ⟨-, -, -, i, hi1, hp, hminP, -⟩
              have hz := hminP 0 (by omega)
              rw [hz] at hpidx
              exact Bool.noConfusion hpidx
          · have h1le : 1 ≤ idx := by omega
            rw [if_neg hlt]
            constructor
            · intro h
              refine ⟨by simp, hh1, hh2, idx, h1le, hpidx, hmin, ?_⟩
              simpa using h
            · rintro ⟨-, -, -, i, hi1, hp, hminP, htake⟩
              have hieq : i = idx := by
                by_contra hne
                rcases Nat.lt_or_ge i idx with hlt2 | hge
                · have hfa := hmin i hlt2
                  rw [hfa] at hp
                  exact Bool.noConfusion hp
                · have hgt : idx < i := by omega
                  have hfa := hminP idx hgt
                  rw [hfa] at hpidx
                  exact Bool.noConfusion hpidx
              subst hieq
              simpa using htake

/-- Witness for the amended C7 theorem on a concrete trailer line. -/
theorem isTrailerLine_iff_witness :
    isTrailerLine (("Signed-off-by: Botname").toList) = true :=
  (isTrailerLine_iff (("Signed-off-by: Botname").toList)).2
    (by
      refine ⟨by decide, by decide, by decide, 13, by omega, by decide, ?_,
        by decide⟩
      intro j hj
      interval_cases j <;> decide)

theorem walkConfigGo_toml_ignores_blocklist (levels : List DirLevel) :
    ∀ (bc : BlockConfig) (found : Bool),
    walkConfigGo bc .configTOML found levels =
      walkConfigGo bc .configTOML found
        (levels.map (fun lvl => { lvl with blocklist := none })) := by
  induction levels with
  | nil => intro bc found; rfl
  | cons lvl rest ih =>
    intro bc found
    simp only [List.map_cons, walkConfigGo]
    exact ih _ _

/-- C2: when a structured config file (`snag.toml` or `snag-local.toml`)
exists at the starting (child) directory, the walk commits to structured
mode there and never consults any ancestor level's legacy `.blocklist`
file: erasing every ancestor's legacy file leaves the walk's result
unchanged, so no pattern from an ancestor's legacy file can appear in the
resolved policy. -/
theorem walkConfig_mode_commitment (child : DirLevel)
    (rest : List DirLevel)
    (h : child.toml.isSome = true ∨ child.localToml.isSome = true) :
    walkConfig (child :: rest) =
      walkConfig
        (child :: rest.map (fun lvl => { lvl with blocklist := none })) := by
  have hcond : (child.toml.isSome || child.localToml.isSome) = true := by
    rcases h with h | h <;> simp [h]
  simp only [walkConfig, walkConfigGo, hcond, if_true]
  exact walkConfigGo_toml_ignores_blocklist rest _ _

/-- Witness for C2: a child level with `snag.toml` containing diff pattern
`"a"` and a parent level with only a legacy `.blocklist` containing
`"legacyhack"`; the parent's legacy file is ignored and its pattern is
absent from the result. -/
theorem walkConfig_mode_commitment_witness :
    ((⟨some ⟨[("a").toList], [], none, []⟩, none, none⟩ :
        DirLevel).toml.isSome = true
      ∨ (⟨some ⟨[("a").toList], [], none, []⟩, none, none⟩ :
        DirLevel).localToml.isSome = true)
    ∧ walkConfig [⟨some ⟨[("a").toList], [], none, []⟩, none, none⟩,
        ⟨none, none, some [("legacyhack").toList]⟩]
      = walkConfig [⟨some ⟨[("a").toList], [], none, []⟩, none, none⟩,
        ⟨none, none, none⟩]
    ∧ ("legacyhack").toList ∉
        (walkConfig [⟨some ⟨[("a").toList], [], none, []⟩, none, none⟩,
          ⟨none, none, some [("legacyhack").toList]⟩]).1.Diff := by
  refine ⟨Or.inl rfl, ?_, by decide⟩
  exact walkConfig_mode_commitment
    ⟨some ⟨[("a").toList], [], none, []⟩, none, none⟩
    [⟨none, none, some [("legacyhack").toList]⟩] (Or.inl rfl)

theorem walkConfigGo_push_none (levels : List DirLevel) :
    ∀ (bc : BlockConfig) (kind : ConfigKind) (found : Bool),
    (∀ lvl ∈ levels,
      (∀ c, lvl.toml = some c → c.push = none)
      ∧ (∀ c, lvl.localToml = some c → c.push = none)
      ∧ lvl.blocklist = none) →
    bc.Push = none →
    (walkConfigGo bc kind found levels).1.Push = none := by
  induction levels with
  | nil =>
    intro bc kind found _ hbc
    exact hbc
  | cons lvl rest ih =>
    intro bc kind found h hbc
    obtain ⟨h1, h2, h3⟩ := h lvl (List.mem_cons_self _ _)
    have hrest := fun l hl => h l (List.mem_cons_of_mem _ hl)
    have hT : ∀ b : BlockConfig, b.Push = none →
        (mergeOptTOML (mergeOptTOML b lvl.toml) lvl.localToml).Push = none := by
      intro b hb
      have hb1 : (mergeOptTOML b lvl.toml).Push = none := by
        cases htl : lvl.toml with
        | none => exact hb
        | some cfg =>
          show (mergeTOML b cfg).Push = none
          simp only [mergeTOML, h1 cfg htl]
          exact hb
      cases htl : lvl.localToml with
      | none => exact hb1
      | some cfg =>
        show (mergeTOML (mergeOptTOML b lvl.toml) cfg).Push = none
        simp only [mergeTOML, h2 cfg htl]
        exact hb1
    cases kind with
    | configNone =>
      simp only [walkConfigGo]
      by_cases hif : (lvl.toml.isSome || lvl.localToml.isSome) = true
      · rw [if_pos hif]
        exact ih _ _ _ hrest (hT bc hbc)
      · rw [if_neg hif, h3]
        exact ih _ _ _ hrest hbc
    | configTOML =>
      simp only [walkConfigGo]
      exact ih _ _ _ hrest (hT bc hbc)
    | configBlocklist =>
      simp only [walkConfigGo]
      rw [h3]
      exact ih _ _ _ hrest hbc

theorem overlayEnv_push_none {bc : BlockConfig}
    {envP envB : List (List Char)} (h : bc.Push = none) :
    (overlayEnv bc envP envB).Push = none := by
  unfold overlayEnv
  by_cases he : envP.length > 0 <;> simp [he, h]

theorem applyDefaultBranches_push (bc : BlockConfig) :
    (applyDefaultBranches bc).Push = bc.Push := by
  unfold applyDefaultBranches
  by_cases h : bc.Branch.length = 0 <;> simp [h]

theorem normalizeConfig_push_none {bc : BlockConfig}
    (h : bc.Push = none) : (normalizeConfig bc).Push = none := by
  unfold normalizeConfig
  simp [h]

/-- C3: when no source explicitly sets push (no structured section at any
level carries a push key, no legacy file, no explicit override), the
resolved policy's push stays unset and the effective push pattern set
`PushPatterns` is the deduplicated union of the resolved diff and msg
lists, diff first; and any policy whose push was explicitly set to the
empty list has an empty effective push set even when diff and msg are
non-empty (witnessed by the concrete section with `diff = ["a"]`,
`msg = ["b"]`, `push = []`). -/
theorem pushPatterns_fallback_spec :
    (∀ (levels : List DirLevel) (envP envB : List (List Char)),
      (∀ lvl ∈ levels,
        (∀ c, lvl.toml = some c → c.push = none)
        ∧ (∀ c, lvl.localToml = some c → c.push = none)
        ∧ lvl.blocklist = none) →
      (resolveBlockConfigPure none levels envP envB).Push = none
      ∧ (resolveBlockConfigPure none levels envP envB).PushPatterns
        = deduplicatePatterns
            ((resolveBlockConfigPure none levels envP envB).Diff
              ++ (resolveBlockConfigPure none levels envP envB).Msg))
    ∧ (∀ bc : BlockConfig, bc.Push = some [] → bc.PushPatterns = [])
    ∧ (resolveBlockConfigPure none
        [⟨some ⟨[("a").toList], [("b").toList], some [], []⟩, none, none⟩]
        [] []).Push = some []
    ∧ (resolveBlockConfigPure none
        [⟨some ⟨[("a").toList], [("b").toList], some [], []⟩, none, none⟩]
        [] []).PushPatterns = []
    ∧ (resolveBlockConfigPure none
        [⟨some ⟨[("a").toList], [("b").toList], some [], []⟩, none, none⟩]
        [] []).Diff = [("a").toList] := by
  refine ⟨?_, ?_, by decide, by decide, by decide⟩
  · intro levels envP envB h
    have hw : (walkConfig levels).1.Push = none :=
      walkConfigGo_push_none levels _ _ _ h rfl
    have h2 : (overlayEnv (walkConfig levels).1 envP envB).Push = none :=
      overlayEnv_push_none hw
    have h3 : (applyDefaultBranches
        (overlayEnv (walkConfig levels).1 envP envB)).Push = none := by
      rw [applyDefaultBranches_push]
      exact h2
    have hpn : (resolveBlockConfigPure none levels envP envB).Push = none :=
      normalizeConfig_push_none h3
    exact ⟨hpn, by simp [BlockConfig.PushPatterns, hpn]⟩
  · intro bc h
    simp [BlockConfig.PushPatterns, h]

/-- Witness for C3 at a concrete input: one `snag.toml` level with
`diff = ["a"]`, `msg = ["b"]` and no push key resolves to an unset push
whose effective set is `["a", "b"]`. -/
theorem pushPatterns_fallback_spec_witness :
    (resolveBlockConfigPure none
      [⟨some ⟨[("a").toList], [("b").toList], none, []⟩, none, none⟩]
      [] []).Push = none
    ∧ (resolveBlockConfigPure none
      [⟨some ⟨[("a").toList], [("b").toList], none, []⟩, none, none⟩]
      [] []).PushPatterns = [("a").toList, ("b").toList] := by
  have h := pushPatterns_fallback_spec.1
    [⟨some ⟨[("a").toList], [("b").toList], none, []⟩, none, none⟩] [] []
    (by
      intro lvl hl
      rcases List.mem_singleton.1 hl with rfl
      exact ⟨fun c hc => by injection hc with hc2; rw [← hc2],
        fun c hc => by exact Option.noConfusion hc, rfl⟩)
  refine ⟨h.1, ?_⟩
  rw [h.2]
  decide

theorem cmpNat_neg_iff (x y : Nat) : cmpNat x y < 0 ↔ x < y := by
  unfold cmpNat
  by_cases h : x < y
  · simp [h]
  · by_cases h2 : y < x <;> simp [h, h2]

theorem cmpNat_eq_zero_iff (x y : Nat) : cmpNat x y = 0 ↔ x = y := by
  unfold cmpNat
  by_cases h : x < y
  · simp [h]
    omega
  · by_cases h2 : y < x <;> simp [h, h2] <;> omega

theorem compareSemver_neg_iff (a b : List Char) :
    compareSemver a b < 0 ↔ semverOlder a b := by
  unfold compareSemver semverOlder
  by_cases h0 : cmpNat (semPart a 0) (semPart b 0) = 0
  · have he0 : semPart a 0 = semPart b 0 := (cmpNat_eq_zero_iff _ _).1 h0
    rw [if_neg (by simp [h0])]
    by_cases h1 : cmpNat (semPart a 1) (semPart b 1) = 0
    · have he1 : semPart a 1 = semPart b 1 := (cmpNat_eq_zero_iff _ _).1 h1
      rw [if_neg (by simp [h1]), cmpNat_neg_iff]
      constructor
      · intro h
        exact Or.inr ⟨he0, Or.inr ⟨he1, h⟩⟩
      · rintro (h | ⟨-, h | ⟨-, h⟩⟩)
        · omega
        · omega
        · exact h
    · rw [if_pos (by simp [h1])]
      rw [cmpNat_neg_iff]
      constructor
      · intro h
        exact Or.inr ⟨he0, Or.inl h⟩
      · rintro (h | ⟨-, h | ⟨he1, -⟩⟩)
        · omega
        · exact h
        · exact absurd ((cmpNat_eq_zero_iff _ _).2 he1) h1
  · rw [if_pos (by simp [h0]), cmpNat_neg_iff]
    constructor
    · intro h
      exact Or.inl h
    · rintro (h | ⟨he0, -⟩)
      · exact h
      · exact absurd ((cmpNat_eq_zero_iff _ _).2 he0) h0

/-- C9: a structured file's declared minimum version makes resolution fail
with a version-mismatch error whose message starts with the offending file
path iff the running version (after trimming a leading `v` from both
sides) is numerically older — lexicographically smaller
major.minor.patch — than the declared minimum; a dev build (`"dev"` or a
`"dev+"` prefix) is always exempt and never fails. -/
theorem checkMinVersion_spec (version minVer path : List Char) :
    (isDevBuild version = true →
      checkMinVersion version minVer path = none)
    ∧ (isDevBuild version = false →
      ((checkMinVersion version minVer path).isSome = true ↔
        semverOlder (trimV version) (trimV minVer)))
    ∧ (∀ msg, checkMinVersion version minVer path = some msg →
        path <+: msg) := by
  refine ⟨?_, ?_, ?_⟩
  · intro h
    unfold checkMinVersion
    rw [if_pos h]
  · intro h
    unfold checkMinVersion
    rw [if_neg (by simp [h])]
    by_cases hc : compareSemver (trimV version) (trimV minVer) < 0
    · rw [if_pos hc]
      simpa using (compareSemver_neg_iff _ _).1 hc
    · rw [if_neg hc]
      simp only [Option.isSome_none, Bool.false_eq_true, false_iff]
      intro hold
      exact hc ((compareSemver_neg_iff _ _).2 hold)
  · intro msg h
    unfold checkMinVersion at h
    by_cases hd : isDevBuild version = true
    · rw [if_pos hd] at h
      exact Option.noConfusion h
    · rw [if_neg hd] at h
      by_cases hc : compareSemver (trimV version) (trimV minVer) < 0
      · rw [if_pos hc] at h
        injection h with h2
        rw [← h2]
        simp only [List.append_assoc]
        exact List.prefix_append _ _
      · rw [if_neg hc] at h
        exact Option.noConfusion h

/-- Witness for C9 at concrete versions: running `"0.4.0"` against minimum
`"v0.5.0"` is not a dev build and fails the check. -/
theorem checkMinVersion_spec_witness :
    isDevBuild (("0.4.0").toList) = false
    ∧ (checkMinVersion (("0.4.0").toList) (("v0.5.0").toList)
        (("/r/snag.toml").toList)).isSome = true := by
  refine ⟨by decide, ?_⟩
  refine ((checkMinVersion_spec (("0.4.0").toList) (("v0.5.0").toList)
    (("/r/snag.toml").toList)).2.1 (by decide)).2 ?_
  unfold semverOlder
  decide

/-- C1 (suppression model): for any accumulated policy, a suppression
entry consisting of a bare phase name clears that phase's entire pattern
set and leaves the other phases untouched; an entry `phase:pattern`
removes exactly the patterns equal to `pattern` up to case from that phase
and leaves everything else untouched; and in the full resolution pipeline
(suppression applied after all accumulation and before normalization) the
spec's example holds: with resolved diff patterns `["hack", "fixme"]`,
entry `"diff:hack"` leaves diff `["fixme"]` and entry `"diff"` clears
diff entirely. -/
theorem suppression_overlay_spec :
    (∀ bc : BlockConfig,
      suppressEntry bc (("diff").toList) = { bc with Diff := [] })
    ∧ (∀ bc : BlockConfig,
      suppressEntry bc (("msg").toList) = { bc with Msg := [] })
    ∧ (∀ bc : BlockConfig,
      suppressEntry bc (("push").toList) = { bc with Push := some [] })
    ∧ (∀ bc : BlockConfig,
      suppressEntry bc (("branch").toList) = { bc with Branch := [] })
    ∧ (∀ (bc : BlockConfig) (pat : List Char),
      suppressEntry bc (("diff:").toList ++ pat)
        = { bc with Diff := removePatternCI bc.Diff pat }
      ∧ suppressEntry bc (("msg:").toList ++ pat)
        = { bc with Msg := removePatternCI bc.Msg pat }
      ∧ suppressEntry bc (("push:").toList ++ pat)
        = { bc with Push := bc.Push.map (removePatternCI · pat) }
      ∧ suppressEntry bc (("branch:").toList ++ pat)
        = { bc with Branch := removePatternCI bc.Branch pat })
    ∧ (∀ (ps : List (List Char)) (pat q : List Char),
      q ∈ removePatternCI ps pat ↔
        (q ∈ ps ∧ toLowerStr q ≠ toLowerStr pat))
    ∧ (resolveWithSuppression none
        [⟨some ⟨[("hack").toList, ("fixme").toList], [], none, []⟩, none,
          none⟩] [] [] [("diff:hack").toList]).Diff = [("fixme").toList]
    ∧ (resolveWithSuppression none
        [⟨some ⟨[("hack").toList, ("fixme").toList], [], none, []⟩, none,
          none⟩] [] [] [("diff").toList]).Diff = [] := by
  refine ⟨fun bc => rfl, fun bc => rfl, fun bc => rfl, fun bc => rfl,
    fun bc pat => ⟨rfl, rfl, rfl, rfl⟩, ?_, by decide, by decide⟩
  intro ps pat q
  simp [removePatternCI, List.mem_filter]

theorem stripTrailers_eq (lines patterns : List (List Char)) :
    stripTrailers lines patterns =
      (lines.filter (fun l =>
          !(isTrailerLine l && (matchesBlocklist l patterns).2)),
        lines.countP (fun l =>
          isTrailerLine l && (matchesBlocklist l patterns).2)) := by
  induction lines with
  | nil => rfl
  | cons l ls ih =>
    by_cases h : (isTrailerLine l && (matchesBlocklist l patterns).2) = true
    · simp only [stripTrailers, h, if_true, ih, List.filter_cons,
        List.countP_cons, Bool.not_true, Bool.false_eq_true, if_false,
        if_true]
    · have h2 : (isTrailerLine l && (matchesBlocklist l patterns).2)
          = false := by
        cases hx : (isTrailerLine l && (matchesBlocklist l patterns).2) with
        | false => rfl
        | true => exact absurd hx h
      simp only [stripTrailers, h2, Bool.false_eq_true, if_false, ih,
        List.filter_cons, List.countP_cons, Bool.not_false, if_true]
      simp

/-- C4: with a nonempty pattern list, phase 1 of the message check removes
exactly the lines that both qualify as trailer lines and match a pattern
(the contents after the check are the remaining lines re-joined, and the
removal count is the number of such lines), and removals alone never fail
the check: the check fails iff the re-joined remaining body still matches
some pattern, and the reported pattern is the first matching one in list
order. -/
theorem runMsg_two_phase_spec (contents : List Char)
    (patterns : List (List Char)) (hne : patterns ≠ []) :
    (runMsg contents patterns).newContents = keptBody contents patterns
    ∧ (runMsg contents patterns).removedCount
      = (splitLines contents).countP (fun l =>
          isTrailerLine l && (matchesBlocklist l patterns).2)
    ∧ ((runMsg contents patterns).failure = none ↔
        (matchesBlocklist (keptBody contents patterns) patterns).2 = false)
    ∧ (∀ p, (runMsg contents patterns).failure = some p →
        ∃ i, patterns.get? i = some p
          ∧ strContains (toLowerStr (keptBody contents patterns)) p = true
          ∧ ∀ j q, j < i → patterns.get? j = some q →
            strContains (toLowerStr (keptBody contents patterns)) q
              = false) := by
  have hlen : ¬ (patterns.length = 0) := by
    simpa [List.length_eq_zero] using hne
  have hrm : runMsg contents patterns =
      (let fr := stripTrailers (splitLines contents) patterns
       let newContents := if fr.2 > 0 then joinLines fr.1 else contents
       let m := matchesBlocklist (joinLines fr.1) patterns
       if m.2 then ⟨newContents, decide (fr.2 > 0), fr.2, some m.1⟩
       else ⟨newContents, decide (fr.2 > 0), fr.2, none⟩) := by
    unfold runMsg
    rw [if_neg hlen]
  have hnew : (if ((splitLines contents).countP (fun l =>
        isTrailerLine l && (matchesBlocklist l patterns).2)) > 0 then
        joinLines ((splitLines contents).filter (fun l =>
          !(isTrailerLine l && (matchesBlocklist l patterns).2)))
      else contents) = keptBody contents patterns := by
    by_cases hp : ((splitLines contents).countP (fun l =>
        isTrailerLine l && (matchesBlocklist l patterns).2)) > 0
    · rw [if_pos hp]
      rfl
    · rw [if_neg hp]
      have h0 : ((splitLines contents).countP (fun l =>
          isTrailerLine l && (matchesBlocklist l patterns).2)) = 0 := by
        omega
      have hall := List.countP_eq_zero.1 h0
      have hfe : (splitLines contents).filter (fun l =>
          !(isTrailerLine l && (matchesBlocklist l patterns).2))
          = splitLines contents := by
        refine List.filter_eq_self.2 ?_
        intro a ha
        have hx : (isTrailerLine a && (matchesBlocklist a patterns).2)
            = false := by
          cases hy : (isTrailerLine a && (matchesBlocklist a patterns).2) with
          | false => rfl
          | true => exact absurd hy (hall a ha)
        simp [hx]
      unfold keptBody
      rw [hfe, joinLines_splitLines]
  rw [hrm]
  simp only [stripTrailers_eq]
  split
  next hm =>
    refine ⟨hnew, rfl, by simp [show
      (matchesBlocklist (keptBody contents patterns) patterns).2 = true
      from hm], ?_⟩
    intro p hp
    have hp1 : (matchesBlocklist (keptBody contents patterns) patterns).1
        = p := Option.some.inj hp
    have hmp : matchesBlocklist (keptBody contents patterns) patterns
        = (p, true) := by
      rw [← hp1]
      rw [show true = (matchesBlocklist (keptBody contents patterns)
        patterns).2 from (show
        (matchesBlocklist (keptBody contents patterns) patterns).2 = true
        from hm).symm]
    exact matchLoop_some hmp
  next hm =>
    have hm2 : (matchesBlocklist (keptBody contents patterns) patterns).2
        = false := by
      cases hx : (matchesBlocklist (keptBody contents patterns)
          patterns).2 with
      | false => rfl
      | true => exact absurd (show (matchesBlocklist (joinLines
          ((splitLines contents).filter (fun l => !(isTrailerLine l &&
          (matchesBlocklist l patterns).2)))) patterns).2 = true from hx) hm
    refine ⟨hnew, rfl, by simp [hm2], ?_⟩
    intro p hp
    exact Option.noConfusion hp

/-- Witness for C4 at the spec's example: body `"please FIXME"` with
trailer `"Signed-off-by: Botname"` under patterns `["fixme", "botname"]`
has the trailer removed from the rewritten file and still fails, reporting
`"fixme"`. -/
theorem runMsg_two_phase_spec_witness :
    (([("fixme").toList, ("botname").toList] : List (List Char)) ≠ [])
    ∧ (runMsg (("please FIXME\nSigned-off-by: Botname").toList)
        [("fixme").toList, ("botname").toList]).newContents
      = ("please FIXME").toList
    ∧ (runMsg (("please FIXME\nSigned-off-by: Botname").toList)
        [("fixme").toList, ("botname").toList]).wrote = true
    ∧ (runMsg (("please FIXME\nSigned-off-by: Botname").toList)
        [("fixme").toList, ("botname").toList]).failure
      = some (("fixme").toList) := by
  refine ⟨by decide, ?_, by decide, by decide⟩
  exact (runMsg_two_phase_spec
    (("please FIXME\nSigned-off-by: Botname").toList)
    [("fixme").toList, ("botname").toList] (by decide)).1.trans (by decide)

/-- C10: when no line of the message file both qualifies as a trailer line
and matches a pattern, phase 1 removes nothing and the check never writes
the file: the contents after the check equal the original contents and the
write flag is false, whether or not phase 2 fails. -/
theorem runMsg_no_rewrite_spec (contents : List Char)
    (patterns : List (List Char))
    (h : ∀ l ∈ splitLines contents,
      isTrailerLine l = false ∨ (matchesBlocklist l patterns).2 = false) :
    (runMsg contents patterns).wrote = false
    ∧ (runMsg contents patterns).newContents = contents := by
  by_cases hlen : patterns.length = 0
  · unfold runMsg
    rw [if_pos hlen]
    exact ⟨rfl, rfl⟩
  · have hrm : runMsg contents patterns =
        (let fr := stripTrailers (splitLines contents) patterns
         let newContents := if fr.2 > 0 then joinLines fr.1 else contents
         let m := matchesBlocklist (joinLines fr.1) patterns
         if m.2 then ⟨newContents, decide (fr.2 > 0), fr.2, some m.1⟩
         else ⟨newContents, decide (fr.2 > 0), fr.2, none⟩) := by
      unfold runMsg
      rw [if_neg hlen]
    have hN : ((splitLines contents).countP (fun l =>
        isTrailerLine l && (matchesBlocklist l patterns).2)) = 0 := by
      refine List.countP_eq_zero.2 ?_
      intro l hl
      rcases h l hl with h1 | h1 <;> simp [h1]
    rw [hrm]
    simp only [stripTrailers_eq]
    split
    next hm => exact ⟨by simp [hN], by simp [hN]⟩
    next hm => exact ⟨by simp [hN], by simp [hN]⟩

/-- Witness for C10: a one-line message `"please FIXME"` has no trailer
line, so nothing is removed and the file is untouched even though phase 2
fails on the body. -/
theorem runMsg_no_rewrite_spec_witness :
    (∀ l ∈ splitLines (("please FIXME").toList),
      isTrailerLine l = false
      ∨ (matchesBlocklist l [("fixme").toList]).2 = false)
    ∧ (runMsg (("please FIXME").toList) [("fixme").toList]).wrote = false
    ∧ (runMsg (("please FIXME").toList) [("fixme").toList]).newContents
      = ("please FIXME").toList := by
  refine ⟨by decide, ?_, ?_⟩
  · exact (runMsg_no_rewrite_spec (("please FIXME").toList)
      [("fixme").toList] (by decide)).1
  · exact (runMsg_no_rewrite_spec (("please FIXME").toList)
      [("fixme").toList] (by decide)).2

/-- C6: with nonempty, newline-free diff patterns, a staged diff in which
every line containing a blocked pattern (case-insensitively) is a
unified-diff metadata line — e.g. a `+++ b/<pattern>.env` header — passes
the diff check after metadata stripping; and a diff with a non-metadata
added line (`+` prefix) whose content contains pattern `p` fails the
check, with exactly `p` reported when `p` is the pattern list. -/
theorem runDiff_meta_stripping_spec (diff p : List Char)
    (patterns : List (List Char)) (hp : p ∈ patterns)
    (hq : ∀ q ∈ patterns, q ≠ [] ∧ '\n' ∉ q) :
    ((∀ q ∈ patterns, ∀ l ∈ splitLines diff,
        strContains (toLowerStr l) q = true → isDiffMeta l = true) →
      runDiff diff patterns = none)
    ∧ ((∃ l ∈ splitLines diff, isDiffMeta l = false
        ∧ ("+").toList.isPrefixOf l = true
        ∧ strContains (toLowerStr (l.drop 1)) p = true) →
      ((runDiff diff patterns).isSome = true
        ∧ runDiff diff [p] = some p)) := by
  have hlen : ¬ (patterns.length = 0) := by
    have := List.ne_nil_of_mem hp
    simpa [List.length_eq_zero] using this
  constructor
  · intro hmeta
    have hfalse : (matchesPattern (stripDiffNoise (stripDiffMeta diff))
        patterns).2 = false := by
      cases hx : (matchesPattern (stripDiffNoise (stripDiffMeta diff))
          patterns).2 with
      | false => rfl
      | true =>
        exfalso
        have hpair : matchLoop
            (toLowerStr (stripDiffNoise (stripDiffMeta diff))) patterns
            = ((matchesPattern (stripDiffNoise (stripDiffMeta diff))
                patterns).1, true) := by
          show matchesPattern (stripDiffNoise (stripDiffMeta diff))
            patterns = _
          rw [Prod.ext_iff]
          exact ⟨rfl, hx⟩
        obtain ⟨i, hget, hc, -⟩ := matchLoop_some hpair
        set q := (matchesPattern (stripDiffNoise (stripDiffMeta diff))
          patterns).1 with hqdef
        have hqmem : q ∈ patterns := List.get?_mem hget
        obtain ⟨hqne, hqnl⟩ := hq _ hqmem
        rw [stripNoise_stripMeta, toLowerStr_joinLines,
          strContains_joinLines hqne hqnl] at hc
        obtain ⟨l', hl'map, hl'c⟩ := hc
        obtain ⟨t, htadd, rfl⟩ := List.mem_map.1 hl'map
        obtain ⟨l, hlf, hlps⟩ := List.mem_filterMap.1 htadd
        have hplus : ("+").toList.isPrefixOf l = true ∧ l.drop 1 = t := by
          unfold plusStrip at hlps
          by_cases hpp : ("+").toList.isPrefixOf l = true
          · rw [if_pos hpp] at hlps
            exact ⟨hpp, Option.some.inj hlps⟩
          · rw [if_neg hpp] at hlps
            exact Option.noConfusion hlps
        have hlcont : strContains (toLowerStr l)
            ((matchesPattern (stripDiffNoise (stripDiffMeta diff))
              patterns).1) = true := by
          cases l with
          | nil => simp [List.isPrefixOf] at hplus
          | cons c rest =>
            have hrest : rest = t := by
              have := hplus.2
              simpa using this
            subst hrest
            exact strContains_cons_of (Char.toLower c) hl'c
        have hmetaL := hmeta _ hqmem l (List.mem_of_mem_filter hlf) hlcont
        have hnotmeta := List.of_mem_filter hlf
        rw [hmetaL] at hnotmeta
        simp at hnotmeta
    unfold runDiff
    rw [if_neg hlen]
    simp only [hfalse, Bool.false_eq_true, if_false]
  · rintro ⟨l, hlmem, hlnotmeta, hlplus, hlc⟩
    obtain ⟨hpne, hpnl⟩ := hq p hp
    have hladd : l.drop 1 ∈ ((splitLines diff).filter (fun m =>
        !(isDiffMeta m))).filterMap plusStrip := by
      refine List.mem_filterMap.2 ⟨l, ?_, ?_⟩
      · exact List.mem_filter.2 ⟨hlmem, by simp [hlnotmeta]⟩
      · unfold plusStrip
        rw [if_pos hlplus]
    have hmap : toLowerStr (l.drop 1) ∈ (((splitLines diff).filter
        (fun m => !(isDiffMeta m))).filterMap plusStrip).map toLowerStr :=
      List.mem_map_of_mem toLowerStr hladd
    have hcont : strContains
        (toLowerStr (stripDiffNoise (stripDiffMeta diff))) p = true := by
      rw [stripNoise_stripMeta, toLowerStr_joinLines,
        strContains_joinLines hpne hpnl]
      exact ⟨toLowerStr (l.drop 1), hmap, hlc⟩
    constructor
    · have hfound : (matchesPattern (stripDiffNoise (stripDiffMeta diff))
          patterns).2 = true := matchLoop_found hp hcont
      unfold runDiff
      rw [if_neg hlen]
      simp only [hfound, if_true]
      rfl
    · have hm1 : matchesPattern (stripDiffNoise (stripDiffMeta diff)) [p]
          = (p, true) := by
        unfold matchesPattern
        simp [matchLoop, hcont]
      unfold runDiff
      rw [if_neg (by simp)]
      simp [hm1]

/-- Witness for C6: with the single pattern `"secret"`, a diff whose only
occurrence of the pattern is in a `+++ b/secret.env` header passes, and a
diff with an added content line containing it fails reporting
`"secret"`. -/
theorem runDiff_meta_stripping_spec_witness :
    (("secret").toList ∈ [("secret").toList])
    ∧ runDiff (("diff --git a/secret.env b/secret.env\n+++ b/secret.env\n@@ -0,0 +1 @@\n+clean line").toList)
        [("secret").toList] = none
    ∧ runDiff (("+++ b/secret.env\n+the secret value").toList)
        [("secret").toList] = some (("secret").toList) := by
  refine ⟨by decide, ?_, ?_⟩
  · exact (runDiff_meta_stripping_spec
      (("diff --git a/secret.env b/secret.env\n+++ b/secret.env\n@@ -0,0 +1 @@\n+clean line").toList)
      (("secret").toList) [("secret").toList] (by decide) (by decide)).1
      (by decide)
  · exact ((runDiff_meta_stripping_spec
      (("+++ b/secret.env\n+the secret value").toList)
      (("secret").toList) [("secret").toList] (by decide) (by decide)).2
      (by decide)).2
